import Mathlib

/-!
Verification of the yt-tools repository core logic.

This file gives a shallow embedding of the pure logic of the repository:
  - `filter_videos` and `format_duration` from `src/yt_tools/download.py`,
    together with the format-selection string built in `download_videos`;
  - `to_jsonable` from `src/yt_tools/transcribe.py`, embedded twice: once on
    finite value trees (`PyVal`) and once on an explicit heap of references
    (`HNode`), the latter so that self-referential (cyclic) inputs are
    representable;
  - the local-file ingestion guard of `cmd_transcribe` from
    `src/yt_tools/cli.py`.

Python numbers are modelled as rationals, Python strings as Lean strings.
Machine floating point is not modelled; the duration comparisons and the
decimal literals produced by the external lister behave identically over the
rationals.
-/

namespace YtTools

/-! ### Data model: video entries and filter specs (download.py) -/

/-- A video entry as produced by `list_videos`: tab-separated id, duration
(raw text, possibly "NA") and title. -/
structure VideoEntry where
  id : String
  duration : String
  title : String
deriving DecidableEq, Repr

/-- A filter spec as consumed by `filter_videos`. In the Python source it is
a dict read with `.get`: `min_duration` defaults to 0 when absent,
`max_duration` to None (here `none`, which also stands for an explicit None),
and `keywords` to an empty list. -/
structure FilterSpec where
  min_duration : ℚ
  max_duration : Option ℚ
  keywords : List String
deriving DecidableEq, Repr

/-! ### Duration parsing

`filter_videos` runs `float(v["duration"]) if v["duration"] != "NA" else 0`
and maps any `ValueError`/`TypeError` to 0. We model the decimal literals
accepted by Python `float` (optional sign, digits, optional fractional part);
exponent, infinity and nan spellings are not produced by the external lister
and are mapped to `none` like any other parse failure. -/

/-- Value of a list of decimal digit characters. -/
def digitsToNat (ds : List Char) : ℕ :=
  ds.foldl (fun acc c => 10 * acc + (c.toNat - 48)) 0

/-- Parse a decimal literal (optional sign, integer part, optional dot and
fractional part) as a rational; `none` on any malformed input, mirroring the
`ValueError` raised by Python `float`. The value of `±I.F` is assembled as
one exact fraction `±(I * 10^|F| + F) / 10^|F|` over the integers. -/
def parseFloatQ (s : String) : Option ℚ :=
  let step : ℤ × List Char :=
    match s.toList with
    | '-' :: r => (-1, r)
    | '+' :: r => (1, r)
    | r => (1, r)
  let sign := step.1
  let rest := step.2
  let intPart := rest.takeWhile Char.isDigit
  let rest2 := rest.dropWhile Char.isDigit
  match rest2 with
  | [] =>
    if intPart.isEmpty then none
    else some (mkRat (sign * digitsToNat intPart) 1)
  | '.' :: frac =>
    if frac.all Char.isDigit && !(intPart.isEmpty && frac.isEmpty) then
      some (mkRat (sign * (digitsToNat intPart * 10 ^ frac.length + digitsToNat frac))
        (10 ^ frac.length))
    else none
  | _ => none

/-- The duration `filter_videos` computes for an entry: 0 for "NA", the
parsed float otherwise, and 0 again on any parse failure. -/
def pyDuration (s : String) : ℚ :=
  if s = "NA" then 0 else (parseFloatQ s).getD 0

/-! ### Substring matching (Python `in` on strings) -/

/-- Lowercasing of a string, character by character, the semantics of the
Python `.lower()` calls in the filter and in the extension guard (ASCII
case mapping; the identifiers and keywords compared there are ASCII). -/
def strLower (s : String) : String := String.mk (s.toList.map Char.toLower)

/-- Containment of `needle` in `hay` as a contiguous run, the semantics of
the Python expression `needle in hay` on strings (char lists here). -/
def containsSub (needle : List Char) : List Char → Bool
  | [] => needle.isEmpty
  | c :: rest => needle.isPrefixOf (c :: rest) || containsSub needle rest

/-! ### filter_videos (download.py lines 7-32) -/

/-- Decision for one entry inside the loop of `filter_videos`: the three
`continue` guards of the source, in order. Python truthiness of a number is
"nonzero", and of a list is "nonempty". -/
def entryPasses (filters : FilterSpec) (v : VideoEntry) : Bool :=
  let duration := pyDuration v.duration
  let minFail : Bool :=
    decide (filters.min_duration ≠ 0) && decide (duration ≤ filters.min_duration)
  let maxFail : Bool :=
    match filters.max_duration with
    | some m => decide (m ≠ 0) && decide (duration > m)
    | none => false
  let title := strLower v.title
  let kwFail : Bool :=
    if filters.keywords.isEmpty then false
    else !(filters.keywords.all fun kw => containsSub (strLower kw).toList title.toList)
  !minFail && !maxFail && !kwFail

/-- `filter_videos`: keep, in order, the entries that survive all three
guards. The Python loop appends survivors to a fresh list, which is exactly
`List.filter`. -/
def filter_videos (videos : List VideoEntry) (filters : FilterSpec) : List VideoEntry :=
  videos.filter (entryPasses filters)

/-! ### format_duration (download.py lines 77-80)

The source runs `mins, secs = divmod(int(seconds), 60)` and renders
`f"{mins:02d}:{secs:02d}"`. Python `int()` truncates toward zero and
`divmod` with the positive divisor 60 is floor division, which is `Int.fdiv`
and `Int.fmod`. -/

/-- Decimal digits of a natural number, most significant first. The fuel
argument makes the recursion structural; `natDigits` supplies `n + 1` fuel,
which always suffices since the digit recursion divides by 10 each step. -/
def natDigitsAux : ℕ → ℕ → List Char
  | 0, _ => []
  | fuel + 1, n =>
    if n < 10 then [Nat.digitChar n]
    else natDigitsAux fuel (n / 10) ++ [Nat.digitChar (n % 10)]

/-- Decimal digit characters of `n`, most significant first. -/
def natDigits (n : ℕ) : List Char := natDigitsAux (n + 1) n

/-- Left-pad a digit list with one zero when shorter than two characters. -/
def pad2 (ds : List Char) : List Char := if ds.length < 2 then '0' :: ds else ds

/-- The Python format `f"{n:02d}"`: minimum width two, zero padding inserted
after the sign. A negative number together with its sign already reaches
width two, so it is never padded at this width. -/
def pyFormat02 (n : ℤ) : String :=
  if n < 0 then String.mk ('-' :: natDigits (-n).toNat)
  else String.mk (pad2 (natDigits n.toNat))

/-- Floor of a rational as an integer, computed on the normalized fraction. -/
def ratFloorZ (q : ℚ) : ℤ := Int.fdiv q.num q.den

/-- Ceiling of a rational as an integer. -/
def ratCeilZ (q : ℚ) : ℤ := -(Int.fdiv (-q.num) q.den)

/-- Python `int()` on a number truncates toward zero. -/
def pyTrunc (q : ℚ) : ℤ := if q < 0 then ratCeilZ q else ratFloorZ q

/-- `format_duration`: `divmod(int(seconds), 60)` rendered as two
zero-padded fields joined by a colon. -/
def format_duration (seconds : ℚ) : String :=
  let n := pyTrunc seconds
  pyFormat02 (Int.fdiv n 60) ++ ":" ++ pyFormat02 (Int.fmod n 60)

/-- Full match of the regular expression `\d{2,}:\d{2}`: at least two digits,
a colon, then exactly two digits and nothing further. -/
def matchesMMSS (s : String) : Bool :=
  let a := s.toList.takeWhile (fun c => c != ':')
  match s.toList.dropWhile (fun c => c != ':') with
  | ':' :: b =>
    decide (2 ≤ a.length) && a.all Char.isDigit && (b.length == 2) && b.all Char.isDigit
  | _ => false

/-! ### Format-selection expression (download.py lines 59-62) -/

/-- The `-f` expression `download_videos` hands to the external downloader:
a fixed chain for "best", otherwise an f-string with the numeric resolution
spliced into each of the three fallback tiers. -/
def buildFormat (resolution : String) : String :=
  if resolution = "best" then
    "bestvideo+bestaudio[ext=m4a]/bestvideo+bestaudio/best"
  else
    "bestvideo[height<=" ++ resolution ++ "]+bestaudio[ext=m4a]/bestvideo[height<="
      ++ resolution ++ "]+bestaudio/best[height<=" ++ resolution ++ "]"

/-- Split a character list at every occurrence of `sep`, the semantics of
splitting a downloader format expression into its fallback tiers. -/
def splitZ (sep : Char) : List Char → List (List Char)
  | [] => [[]]
  | c :: rest =>
    match splitZ sep rest with
    | [] => [[c]]
    | h :: t => if c = sep then [] :: h :: t else (c :: h) :: t

/-! ### Python value trees and to_jsonable (transcribe.py lines 147-176)

`PyVal` is the universe of finite Python values the normalizer can meet:
the JSON primitives, lists, tuples, sets (their iteration order captured as
a list), dicts (insertion-ordered key/value pairs), dataclass instances
(their field map), and other objects. An object carries an optional callable
`to_dict` (absent, raising, or returning a value) and an optional public
attribute map (`vars`); objects without `__dict__` carry `none`. The numpy
branch of the source is guarded by the optional import at transcribe.py
lines 16-19 and is modelled in the configuration where numpy is absent
(`np = None`), in which the branch is skipped. -/

inductive PyVal : Type where
  | pynone : PyVal
  | pybool : Bool → PyVal
  | pyint : Int → PyVal
  | pyfloat : ℚ → PyVal
  | pystr : String → PyVal
  | pylist : List PyVal → PyVal
  | pytuple : List PyVal → PyVal
  | pyset : List PyVal → PyVal
  | pydict : List (PyVal × PyVal) → PyVal
  | pydataclass : List (String × PyVal) → PyVal
  | pyobj : Option (Option PyVal) → Option (List (String × PyVal)) → PyVal
deriving Repr

/-- Python `str()` of a dict key. Keys of real Python dicts are hashable, so
lists, sets and dicts never occur as keys; the rendering of floats and of
the remaining hashable shapes (tuples, objects) depends on `repr` details
outside this model and is abstracted to a tagged string. -/
def pyStr : PyVal → String
  | .pynone => "None"
  | .pybool true => "True"
  | .pybool false => "False"
  | .pyint n => toString n
  | .pyfloat q => "float:" ++ toString q.num ++ "/" ++ toString q.den
  | .pystr s => s
  | _ => "<key repr>"

/-- Insertion into a string-keyed association list with the overwrite
semantics of a Python dict comprehension: a repeated key keeps its first
position and takes the latest value. -/
def dictInsert (m : List (String × PyVal)) (k : String) (v : PyVal) :
    List (String × PyVal) :=
  if m.any (fun p => p.1 == k) then m.map (fun p => if p.1 == k then (k, v) else p)
  else m ++ [(k, v)]

/-- Build a Python dict from a sequence of key/value pairs, later duplicate
keys overwriting earlier ones. -/
def buildDict (l : List (String × PyVal)) : List (String × PyVal) :=
  l.foldl (fun m p => dictInsert m p.1 p.2) []

/-- Re-wrap a string-keyed association list as a `PyVal` dict. -/
def wrapDict (l : List (String × PyVal)) : PyVal :=
  .pydict (l.map (fun p => (.pystr p.1, p.2)))

mutual

/-- The normalizer `to_jsonable`, clause by clause: primitives pass through;
lists, tuples and sets become lists of normalized elements; dicts become
dicts keyed by `str(k)` with normalized values; dataclasses go through their
field map (the `asdict` route); an object with a callable `to_dict` that
returns recurses on the result, a raising `to_dict` falls through; an object
exposing `__dict__` becomes the dict of its normalized public attributes;
anything else degrades to its `repr` string, abstracted here to a fixed
tag. -/
def to_jsonable : PyVal → PyVal
  | .pynone => .pynone
  | .pybool b => .pybool b
  | .pyint n => .pyint n
  | .pyfloat q => .pyfloat q
  | .pystr s => .pystr s
  | .pylist xs => .pylist (jsonList xs)
  | .pytuple xs => .pylist (jsonList xs)
  | .pyset xs => .pylist (jsonList xs)
  | .pydict kvs => wrapDict (buildDict (jsonPairs kvs))
  | .pydataclass fs => wrapDict (buildDict (jsonFields fs))
  | .pyobj (some (some v)) _ => to_jsonable v
  | .pyobj _ (some attrs) => wrapDict (buildDict (jsonAttrs attrs))
  | .pyobj _ _ => .pystr "<object repr>"

/-- Elementwise normalization of a list (the comprehension
`[to_jsonable(x) for x in obj]`). -/
def jsonList : List PyVal → List PyVal
  | [] => []
  | x :: xs => to_jsonable x :: jsonList xs

/-- Entry list of the dict comprehension
`{str(k): to_jsonable(v) for k, v in obj.items()}`. -/
def jsonPairs : List (PyVal × PyVal) → List (String × PyVal)
  | [] => []
  | p :: rest => (pyStr p.1, to_jsonable p.2) :: jsonPairs rest

/-- Entry list of the dict obtained from a dataclass field map: `asdict`
yields string keys, which `str` leaves unchanged. -/
def jsonFields : List (String × PyVal) → List (String × PyVal)
  | [] => []
  | p :: rest => (p.1, to_jsonable p.2) :: jsonFields rest

/-- Entry list of the attribute comprehension
`{k: to_jsonable(v) for k, v in vars(obj).items() if not k.startswith("_")}`. -/
def jsonAttrs : List (String × PyVal) → List (String × PyVal)
  | [] => []
  | p :: rest =>
    if p.1.startsWith "_" then jsonAttrs rest
    else (p.1, to_jsonable p.2) :: jsonAttrs rest

end

/-- String keys of a dict entry list, in order; non-string keys are skipped. -/
def keyStrs (kvs : List (PyVal × PyVal)) : List String :=
  kvs.filterMap (fun p => match p.1 with | .pystr s => some s | _ => none)

/-- The key is a Python str. -/
def isStrKey : PyVal → Bool
  | .pystr _ => true
  | _ => false

mutual

/-- A value is a JSON-safe tree: null, booleans, numbers, strings, arrays of
JSON-safe values, or dicts whose keys are pairwise-distinct strings and
whose values are JSON-safe. -/
def isJsonSafe : PyVal → Bool
  | .pynone => true
  | .pybool _ => true
  | .pyint _ => true
  | .pyfloat _ => true
  | .pystr _ => true
  | .pylist xs => safeList xs
  | .pydict kvs => safePairs kvs && decide (keyStrs kvs).Nodup
  | _ => false

/-- Every element of the list is JSON-safe. -/
def safeList : List PyVal → Bool
  | [] => true
  | x :: xs => isJsonSafe x && safeList xs

/-- Every entry has a string key and a JSON-safe value. -/
def safePairs : List (PyVal × PyVal) → Bool
  | [] => true
  | p :: rest => isStrKey p.1 && isJsonSafe p.2 && safePairs rest

end

/-! ### Heap view of to_jsonable

Python values are heap references, and the source performs plain recursion
with no cycle detection, so a self-referential object drives it into
unbounded recursion (a `RecursionError`). To make such inputs representable
the normalizer is embedded a second time over an explicit heap: nodes refer
to children by address, and the recursion carries fuel that bounds its
depth and decreases at every step, keeping it structural. A run of the
Python function that returns corresponds to `some` for every sufficiently
large fuel; an infinite recursion yields `none` for every fuel. -/

/-- Heap addresses. -/
abbrev Addr := ℕ

/-- A heap node: the same shapes as `PyVal`, children by address. -/
inductive HNode : Type where
  | hnone : HNode
  | hbool : Bool → HNode
  | hint : Int → HNode
  | hfloat : ℚ → HNode
  | hstr : String → HNode
  | hlist : List Addr → HNode
  | htuple : List Addr → HNode
  | hset : List Addr → HNode
  | hdict : List (Addr × Addr) → HNode
  | hdataclass : List (String × Addr) → HNode
  | hobj : Option (Option Addr) → Option (List (String × Addr)) → HNode
deriving Repr

/-- A heap: a partial map from addresses to nodes. -/
abbrev Heap := Addr → Option HNode

/-- Python `str()` of a dict key node, as in `pyStr`. -/
def pyStrH : HNode → String
  | .hnone => "None"
  | .hbool true => "True"
  | .hbool false => "False"
  | .hint n => toString n
  | .hfloat q => "float:" ++ toString q.num ++ "/" ++ toString q.den
  | .hstr s => s
  | _ => "<key repr>"

mutual

/-- `to_jsonable` on the heap, mirroring the clauses of `to_jsonable` on
trees; `none` when the fuel runs out (the recursion has not returned within
that depth) or an address dangles (unreachable in a real heap). -/
def toJsonableFuel : ℕ → Heap → Addr → Option PyVal
  | 0, _, _ => none
  | n + 1, h, a =>
    match h a with
    | none => none
    | some .hnone => some .pynone
    | some (.hbool b) => some (.pybool b)
    | some (.hint k) => some (.pyint k)
    | some (.hfloat q) => some (.pyfloat q)
    | some (.hstr s) => some (.pystr s)
    | some (.hlist es) => (jsonListFuel n h es).map .pylist
    | some (.htuple es) => (jsonListFuel n h es).map .pylist
    | some (.hset es) => (jsonListFuel n h es).map .pylist
    | some (.hdict kvs) => (jsonPairsFuel n h kvs).map (fun l => wrapDict (buildDict l))
    | some (.hdataclass fs) => (jsonFieldsFuel n h fs).map (fun l => wrapDict (buildDict l))
    | some (.hobj (some (some a2)) _) => toJsonableFuel n h a2
    | some (.hobj _ (some attrs)) => (jsonAttrsFuel n h attrs).map (fun l => wrapDict (buildDict l))
    | some (.hobj _ _) => some (.pystr "<object repr>")

/-- Elementwise normalization of a list of addresses. -/
def jsonListFuel : ℕ → Heap → List Addr → Option (List PyVal)
  | 0, _, _ => none
  | _ + 1, _, [] => some []
  | n + 1, h, a :: rest =>
    match toJsonableFuel n h a, jsonListFuel n h rest with
    | some x, some xs => some (x :: xs)
    | _, _ => none

/-- Entry list of the dict comprehension over the heap: the key node is
looked up for `str(k)`, the value normalized. -/
def jsonPairsFuel : ℕ → Heap → List (Addr × Addr) → Option (List (String × PyVal))
  | 0, _, _ => none
  | _ + 1, _, [] => some []
  | n + 1, h, p :: rest =>
    match h p.1, toJsonableFuel n h p.2, jsonPairsFuel n h rest with
    | some kn, some v, some vs => some ((pyStrH kn, v) :: vs)
    | _, _, _ => none

/-- Entry list of the dataclass field map over the heap. -/
def jsonFieldsFuel : ℕ → Heap → List (String × Addr) → Option (List (String × PyVal))
  | 0, _, _ => none
  | _ + 1, _, [] => some []
  | n + 1, h, p :: rest =>
    match toJsonableFuel n h p.2, jsonFieldsFuel n h rest with
    | some v, some vs => some ((p.1, v) :: vs)
    | _, _ => none

/-- Entry list of the public attribute comprehension over the heap. -/
def jsonAttrsFuel : ℕ → Heap → List (String × Addr) → Option (List (String × PyVal))
  | 0, _, _ => none
  | _ + 1, _, [] => some []
  | n + 1, h, p :: rest =>
    if p.1.startsWith "_" then jsonAttrsFuel n h rest
    else
      match toJsonableFuel n h p.2, jsonAttrsFuel n h rest with
      | some v, some vs => some ((p.1, v) :: vs)
      | _, _ => none

end

/-- A one-cell heap whose single node is a list containing itself: the
self-referential value `x = [x]`. -/
def cycHeap : Heap := fun a => if a = 0 then some (.hlist [0]) else none

/-! ### Local-file ingestion guard (cli.py lines 66-82)

The non-URL branch of `cmd_transcribe`, as a pure function of the
filesystem observations it makes: whether the source path is a regular
file, and the absolute-path normalization used for the self-copy test.
`os.path.join(outdir, name)` is modelled as `outdir ++ "/" ++ name`; the
second component, a base name with a `.wav` suffix, never starts with a
separator, and a trailing separator on `outdir` only duplicates a slash.
A rejection returns before the directory creation, the copy and the
transcription call, so no file is written on that path. -/

/-- Python `str.endswith`: the suffix test on the character list. -/
def pyEndsWith (s suffix : String) : Bool :=
  suffix.toList.reverse.isPrefixOf s.toList.reverse

/-- The last path component, `os.path.basename` for POSIX separators. -/
def basenameStr (p : String) : String :=
  String.mk ((splitZ '/' p.toList).getLastD [])

/-- Stem and extension of a base name, the `os.path.splitext` rule: split at
the last dot only when a character other than a dot stands strictly before
it, so dotfiles such as `.bashrc` keep their dot in the stem. -/
def splitextList (name : List Char) : List Char × List Char :=
  match name.reverse.span (fun c => c != '.') with
  | (revExt, '.' :: revStem) =>
    if revStem.any (fun c => c != '.') then (revStem.reverse, '.' :: revExt.reverse)
    else (name, [])
  | _ => (name, [])

/-- Stem of a path component, `os.path.splitext(...)[0]`. -/
def splitextStem (p : String) : String := String.mk (splitextList p.toList).1

/-- Outcome of the local-file branch: rejection with an exit status and no
file written, or acceptance carrying the derived transcript base name, the
destination WAV path, and whether the copy was performed (skipped when
source and destination resolve to the same absolute path). -/
inductive TranscribeLocal : Type where
  | rejected : ℕ → TranscribeLocal
  | accepted : (baseName destPath : String) → (copied : Bool) → TranscribeLocal
deriving DecidableEq, Repr

/-- The guard of `cmd_transcribe` for a non-URL source: reject a missing
file with exit status 1; reject a file whose lowercased name does not end
in ".wav" with exit status 1; otherwise derive the base name as the file
name minus its extension, form the destination path in the output
directory, and copy unless source and destination coincide. -/
def cmd_transcribe_local (fileExists : String → Bool) (abspath : String → String)
    (source outdir : String) : TranscribeLocal :=
  if !fileExists source then .rejected 1
  else if !pyEndsWith (strLower source) ".wav" then .rejected 1
  else
    let baseName := splitextStem (basenameStr source)
    let destPath := outdir ++ "/" ++ baseName ++ ".wav"
    .accepted baseName destPath (abspath source != abspath destPath)

/-! ## Theorems -/

/-! ### Filtering (claims C1, C2, C3, C9) -/

/-- C2: filtering with `min_duration = 0`, no `max_duration` and no keywords
returns the input list unchanged, order preserved. The embedded functions
are pure, and the source builds a fresh result list without writing to its
input, so no mutation is possible. -/
theorem filter_videos_trivial_filter_id (videos : List VideoEntry) :
    filter_videos videos ⟨0, none, []⟩ = videos := by
  unfold filter_videos
  exact List.filter_eq_self.mpr fun a _ => rfl

/-- C3: filtering is idempotent: a second pass with the same spec keeps
every survivor of the first pass. -/
theorem filter_videos_idempotent (videos : List VideoEntry) (s : FilterSpec) :
    filter_videos (filter_videos videos s) s = filter_videos videos s := by
  unfold filter_videos
  exact List.filter_eq_self.mpr fun a ha => List.of_mem_filter ha

/-- C9: the maximum-duration guard tests Python truthiness, so
`max_duration = 0` behaves exactly like an absent (or None) maximum and
entries of any duration pass the maximum check. -/
theorem filter_videos_max_zero_disabled (videos : List VideoEntry) (mind : ℚ)
    (kws : List String) :
    filter_videos videos ⟨mind, some 0, kws⟩ = filter_videos videos ⟨mind, none, kws⟩ := by
  unfold filter_videos
  congr 1

/-- C1 (counterexample): with `max_duration` set to 0 the maximum bound is
not enforced: an entry of parsed duration 5 is included although its
duration exceeds the configured maximum 0. -/
theorem filter_videos_max_set_not_bounding :
    filter_videos [⟨"a", "5", "x"⟩] ⟨0, some 0, []⟩ = [⟨"a", "5", "x"⟩] ∧
    ¬ pyDuration "5" ≤ (0 : ℚ) := by
  constructor
  · rfl
  · decide

/-- C1 (amended): an entry included by `filter_videos` has parsed duration
(with "NA" and parse failures read as 0) strictly above `min_duration`
whenever `min_duration > 0`, at most `max_duration` whenever `max_duration`
is set to a nonzero value, and its lowercased title contains every
lowercased keyword of the spec. -/
theorem filter_videos_included_invariants (videos : List VideoEntry) (s : FilterSpec)
    (v : VideoEntry) (hv : v ∈ filter_videos videos s) :
    (0 < s.min_duration → s.min_duration < pyDuration v.duration) ∧
    (∀ m : ℚ, s.max_duration = some m → m ≠ 0 → pyDuration v.duration ≤ m) ∧
    (∀ kw ∈ s.keywords,
      containsSub (strLower kw).toList (strLower v.title).toList = true) := by
  have hp : entryPasses s v = true := List.of_mem_filter hv
  unfold entryPasses at hp
  simp only [Bool.and_eq_true, Bool.not_eq_true'] at hp
  obtain ⟨⟨hmin, hmax⟩, hkw⟩ := hp
  refine ⟨?_, ?_, ?_⟩
  · intro h0
    rcases Bool.and_eq_false_iff.mp hmin with h | h
    · exact absurd (by simpa using h) (ne_of_gt h0)
    · have := of_decide_eq_false h
      exact lt_of_not_le this
  · intro m hm hm0
    rw [hm] at hmax
    rcases Bool.and_eq_false_iff.mp hmax with h | h
    · exact absurd (by simpa using h) hm0
    · exact not_lt.mp (of_decide_eq_false h)
  · intro kw hkwmem
    rcases hE : s.keywords.isEmpty with _ | _
    · rw [hE] at hkw
      simp only [Bool.ite_eq_false_distrib, if_false, Bool.not_eq_false'] at hkw
      exact List.all_eq_true.mp hkw kw hkwmem
    · rw [List.isEmpty_iff] at hE
      rw [hE] at hkwmem
      exact absurd hkwmem (List.not_mem_nil kw)

/-- C1 (witness): a concrete survivor of a spec with a positive minimum, a
nonzero maximum and one keyword satisfies all three invariants. -/
theorem filter_videos_included_invariants_witness :
    (0 < (30 : ℚ) → (30 : ℚ) < pyDuration "100") ∧
    (∀ m : ℚ, (some (200 : ℚ) : Option ℚ) = some m → m ≠ 0 → pyDuration "100" ≤ m) ∧
    (∀ kw ∈ ["foo"],
      containsSub (strLower kw).toList (strLower "Foo Bar").toList = true) :=
  filter_videos_included_invariants [⟨"a", "100", "Foo Bar"⟩] ⟨30, some 200, ["foo"]⟩
    ⟨"a", "100", "Foo Bar"⟩ (by decide)

/-! ### Duration formatting (claim C4) -/

theorem digitChar_isDigit {n : ℕ} (h : n < 10) : (Nat.digitChar n).isDigit = true := by
  interval_cases n <;> rfl

theorem natDigitsAux_all_isDigit :
    ∀ fuel n, n < fuel → (natDigitsAux fuel n).all Char.isDigit = true := by
  intro fuel
  induction fuel with
  | zero => omega
  | succ fuel ih =>
    intro n hn
    unfold natDigitsAux
    by_cases h10 : n < 10
    · rw [if_pos h10]
      simp [digitChar_isDigit h10]
    · rw [if_neg h10]
      have hdiv : n / 10 < fuel := by omega
      have hmod : n % 10 < 10 := by omega
      simp [List.all_append, ih _ hdiv, digitChar_isDigit hmod]

theorem natDigitsAux_length_pos :
    ∀ fuel n, n < fuel → 1 ≤ (natDigitsAux fuel n).length := by
  intro fuel
  induction fuel with
  | zero => omega
  | succ fuel _ =>
    intro n _
    unfold natDigitsAux
    by_cases h10 : n < 10
    · rw [if_pos h10]; simp
    · rw [if_neg h10]; simp

theorem natDigitsAux_length_one {fuel n : ℕ} (hn : n < fuel) (h10 : n < 10) :
    (natDigitsAux fuel n).length = 1 := by
  cases fuel with
  | zero => omega
  | succ fuel => unfold natDigitsAux; rw [if_pos h10]; rfl

theorem natDigitsAux_length_le_two {fuel n : ℕ} (hn : n < fuel) (h100 : n < 100) :
    (natDigitsAux fuel n).length ≤ 2 := by
  cases fuel with
  | zero => omega
  | succ fuel =>
    unfold natDigitsAux
    by_cases h10 : n < 10
    · rw [if_pos h10]; simp
    · rw [if_neg h10]
      have hdiv : n / 10 < fuel := by omega
      have hdiv10 : n / 10 < 10 := by omega
      simp [natDigitsAux_length_one hdiv hdiv10]

theorem natDigits_all_isDigit (n : ℕ) : (natDigits n).all Char.isDigit = true :=
  natDigitsAux_all_isDigit (n + 1) n (by omega)

theorem natDigits_length_pos (n : ℕ) : 1 ≤ (natDigits n).length :=
  natDigitsAux_length_pos (n + 1) n (by omega)

theorem natDigits_length_le_two {n : ℕ} (h : n < 100) : (natDigits n).length ≤ 2 :=
  natDigitsAux_length_le_two (by omega) h

/-- Character list of `pyFormat02` on a nonnegative argument. -/
theorem pyFormat02_toList_nonneg (n : ℤ) (h : 0 ≤ n) :
    (pyFormat02 n).toList = pad2 (natDigits n.toNat) := by
  unfold pyFormat02
  rw [if_neg (by omega)]
  rfl

/-- Character content of `pyFormat02` on a nonnegative argument: only digits,
at least two of them. -/
theorem pyFormat02_nonneg (n : ℤ) (h : 0 ≤ n) :
    (pyFormat02 n).toList.all Char.isDigit = true ∧ 2 ≤ (pyFormat02 n).toList.length := by
  rw [pyFormat02_toList_nonneg n h]
  unfold pad2
  by_cases hl : (natDigits n.toNat).length < 2
  · rw [if_pos hl]
    refine ⟨?_, ?_⟩
    · simp [natDigits_all_isDigit]
    · have := natDigits_length_pos n.toNat
      simp only [List.length_cons]
      omega
  · rw [if_neg hl]
    exact ⟨natDigits_all_isDigit n.toNat, by omega⟩

/-- Character content of `pyFormat02` on an argument in `[0, 100)`: exactly
two digit characters. -/
theorem pyFormat02_small (n : ℤ) (h0 : 0 ≤ n) (h : n < 100) :
    (pyFormat02 n).toList.all Char.isDigit = true ∧ (pyFormat02 n).toList.length = 2 := by
  refine ⟨(pyFormat02_nonneg n h0).1, ?_⟩
  have h2 := (pyFormat02_nonneg n h0).2
  rw [pyFormat02_toList_nonneg n h0] at h2 ⊢
  have hlt : n.toNat < 100 := by omega
  have hle := natDigits_length_le_two hlt
  unfold pad2 at h2 ⊢
  by_cases hl : (natDigits n.toNat).length < 2
  · rw [if_pos hl] at h2 ⊢
    simp only [List.length_cons] at h2 ⊢
    omega
  · rw [if_neg hl] at h2 ⊢
    omega

theorem toList_string_append (s t : String) : (s ++ t).toList = s.toList ++ t.toList :=
  String.data_append s t

theorem takeWhile_all_append {p : Char → Bool} (a : List Char) (c : Char) (b : List Char)
    (ha : ∀ x ∈ a, p x = true) (hc : p c = false) :
    (a ++ c :: b).takeWhile p = a := by
  induction a with
  | nil => simp [List.takeWhile, hc]
  | cons x a ih =>
    have hx : p x = true := ha x (by simp)
    simp only [List.cons_append, List.takeWhile]
    rw [hx]
    simp [ih fun y hy => ha y (by simp [hy])]

theorem dropWhile_all_append {p : Char → Bool} (a : List Char) (c : Char) (b : List Char)
    (ha : ∀ x ∈ a, p x = true) (hc : p c = false) :
    (a ++ c :: b).dropWhile p = c :: b := by
  induction a with
  | nil => simp [List.dropWhile, hc]
  | cons x a ih =>
    have hx : p x = true := ha x (by simp)
    simp only [List.cons_append, List.dropWhile]
    rw [hx]
    exact ih fun y hy => ha y (by simp [hy])

theorem isDigit_ne_colon {c : Char} (h : c.isDigit = true) : (c != ':') = true := by
  by_cases hc : c = ':'
  · subst hc
    exact absurd h (by decide)
  · simp [bne_iff_ne, hc]

/-- `matchesMMSS` holds on any string of the form digits(≥2) ++ ":" ++ digits(=2). -/
theorem matchesMMSS_of_shape (a b : List Char)
    (haD : a.all Char.isDigit = true) (haL : 2 ≤ a.length)
    (hbD : b.all Char.isDigit = true) (hbL : b.length = 2)
    (s : String) (hs : s.toList = a ++ ':' :: b) :
    matchesMMSS s = true := by
  unfold matchesMMSS
  have hmem : ∀ x ∈ a, (x != ':') = true := by
    intro x hx
    exact isDigit_ne_colon (List.all_eq_true.mp haD x hx)
  have hcol : ((':' : Char) != ':') = false := by decide
  rw [hs, takeWhile_all_append a ':' b hmem hcol, dropWhile_all_append a ':' b hmem hcol]
  simp [haD, haL, hbD, hbL]

theorem ratFloorZ_eq_floor (q : ℚ) : ratFloorZ q = ⌊q⌋ := by
  rw [Rat.floor_def]
  unfold ratFloorZ
  rw [Int.fdiv_eq_ediv _ (by positivity)]

/-- C4: for every (nonnegative) duration, `format_duration` matches
`\d{2,}:\d{2}` and is the zero-padded rendering of
`divmod(floor(d), 60)`; fractional seconds are discarded by truncation,
which on nonnegative input is the floor. In particular
`format_duration 125.9 = "02:05"`. -/
theorem format_duration_spec :
    (∀ d : ℚ, 0 ≤ d →
      matchesMMSS (format_duration d) = true ∧
      format_duration d = pyFormat02 (Int.fdiv ⌊d⌋ 60) ++ ":" ++ pyFormat02 (Int.fmod ⌊d⌋ 60)) ∧
    format_duration (mkRat 1259 10) = "02:05" := by
  constructor
  · intro d hd
    have htr : pyTrunc d = ⌊d⌋ := by
      unfold pyTrunc
      rw [if_neg (not_lt.mpr hd)]
      exact ratFloorZ_eq_floor d
    have heq : format_duration d
        = pyFormat02 (Int.fdiv ⌊d⌋ 60) ++ ":" ++ pyFormat02 (Int.fmod ⌊d⌋ 60) := by
      unfold format_duration
      rw [htr]
    refine ⟨?_, heq⟩
    have h0 : (0 : ℤ) ≤ ⌊d⌋ := Int.floor_nonneg.mpr hd
    have hm : 0 ≤ Int.fdiv ⌊d⌋ 60 := Int.fdiv_nonneg h0 (by norm_num)
    have hs0 : 0 ≤ Int.fmod ⌊d⌋ 60 := Int.fmod_nonneg h0 (by norm_num)
    have hs1 : Int.fmod ⌊d⌋ 60 < 60 := Int.fmod_lt_of_pos _ (by norm_num)
    obtain ⟨hAD, hAL⟩ := pyFormat02_nonneg _ hm
    obtain ⟨hBD, hBL⟩ := pyFormat02_small (Int.fmod ⌊d⌋ 60) hs0 (by omega)
    apply matchesMMSS_of_shape _ _ hAD hAL hBD hBL
    rw [heq, toList_string_append, toList_string_append]
    simp
  · rfl

/-- C4 (witness): the theorem applied at the concrete duration 126.5. -/
theorem format_duration_spec_witness :
    matchesMMSS (format_duration (mkRat 253 2)) = true ∧
    format_duration (mkRat 253 2)
      = pyFormat02 (Int.fdiv ⌊(mkRat 253 2 : ℚ)⌋ 60) ++ ":"
        ++ pyFormat02 (Int.fmod ⌊(mkRat 253 2 : ℚ)⌋ 60) :=
  format_duration_spec.1 (mkRat 253 2) (by decide)

/-! ### Format-selection expression (claim C5) -/

theorem splitZ_ne_nil (sep : Char) (l : List Char) : splitZ sep l ≠ [] := by
  cases l with
  | nil => simp [splitZ]
  | cons c rest =>
    unfold splitZ
    rcases h : splitZ sep rest with _ | ⟨h1, t⟩
    · simp
    · by_cases hc : c = sep <;> simp [hc]

theorem splitZ_no_sep (sep : Char) (a : List Char) (h : ∀ c ∈ a, c ≠ sep) :
    splitZ sep a = [a] := by
  induction a with
  | nil => rfl
  | cons c rest ih =>
    have hc : c ≠ sep := h c (by simp)
    have ht := ih fun x hx => h x (by simp [hx])
    simp [splitZ, ht, hc]

theorem splitZ_nested (sep : Char) (a b : List Char) (h : ∀ c ∈ a, c ≠ sep) :
    splitZ sep (a ++ sep :: b) = a :: splitZ sep b := by
  induction a with
  | nil =>
    simp only [List.nil_append]
    rcases hb : splitZ sep b with _ | ⟨h1, t⟩
    · exact absurd hb (splitZ_ne_nil sep b)
    · simp [splitZ, hb]
  | cons c rest ih =>
    have hc : c ≠ sep := h c (by simp)
    have ht := ih fun x hx => h x (by simp [hx])
    simp only [List.cons_append]
    simp [splitZ, ht, hc]

theorem splitZ_three (t1 t2 t3 : List Char) (h1 : ∀ c ∈ t1, c ≠ '/')
    (h2 : ∀ c ∈ t2, c ≠ '/') (h3 : ∀ c ∈ t3, c ≠ '/') :
    splitZ '/' (t1 ++ '/' :: (t2 ++ '/' :: t3)) = [t1, t2, t3] := by
  rw [splitZ_nested '/' t1 _ h1, splitZ_nested '/' t2 _ h2, splitZ_no_sep '/' t3 h3]

theorem containsSub_of_append (a n b : List Char) : containsSub n (a ++ (n ++ b)) = true := by
  induction a with
  | nil =>
    simp only [List.nil_append]
    cases n with
    | nil =>
      cases b with
      | nil => rfl
      | cons c rest => simp [containsSub]
    | cons m ms =>
      unfold containsSub
      have : (m :: ms).isPrefixOf ((m :: ms) ++ b) = true :=
        List.isPrefixOf_iff_prefix.mpr (List.prefix_append (m :: ms) b)
      simp [this]
  | cons c rest ih =>
    simp only [List.cons_append]
    unfold containsSub
    simp [ih]

theorem isDigit_ne_slash {c : Char} (h : c.isDigit = true) : c ≠ '/' := by
  intro hc
  subst hc
  exact absurd h (by decide)

/-- C5: for a nonempty numeric resolution token the format expression splits
on "/" into exactly three fallback tiers, each containing the bound
`height<=` followed by the token; for "best" it is the fixed chain that
prefers an m4a (AAC) audio track, and no height bound occurs in it. -/
theorem download_format_selection :
    (∀ r : String, r.toList ≠ [] → r.toList.all Char.isDigit = true →
      (splitZ '/' (buildFormat r).toList).length = 3 ∧
      ∀ t ∈ splitZ '/' (buildFormat r).toList,
        containsSub ("height<=" ++ r).toList t = true) ∧
    buildFormat "best" = "bestvideo+bestaudio[ext=m4a]/bestvideo+bestaudio/best" ∧
    containsSub ("height" : String).toList (buildFormat "best").toList = false := by
  refine ⟨?_, rfl, by decide⟩
  intro r _ hdig
  have hrb : r ≠ "best" := by
    intro h
    subst h
    exact absurd hdig (by decide)
  have hdigmem : ∀ c ∈ r.toList, c ≠ '/' := fun c hc =>
    isDigit_ne_slash (List.all_eq_true.mp hdig c hc)
  have hsplit2 : ("]+bestaudio[ext=m4a]/bestvideo[height<=" : String).toList
      = ("]+bestaudio[ext=m4a]" : String).toList
        ++ '/' :: ("bestvideo[height<=" : String).toList := rfl
  have hsplit3 : ("]+bestaudio/best[height<=" : String).toList
      = ("]+bestaudio" : String).toList ++ '/' :: ("best[height<=" : String).toList := rfl
  have hL : (buildFormat r).toList
      = (("bestvideo[height<=" : String).toList
          ++ (r.toList ++ ("]+bestaudio[ext=m4a]" : String).toList))
        ++ '/' :: ((("bestvideo[height<=" : String).toList
          ++ (r.toList ++ ("]+bestaudio" : String).toList))
        ++ '/' :: (("best[height<=" : String).toList
          ++ (r.toList ++ ("]" : String).toList))) := by
    unfold buildFormat
    rw [if_neg hrb]
    simp only [toList_string_append]
    rw [hsplit2, hsplit3]
    simp [List.append_assoc]
  rw [hL]
  rw [splitZ_three _ _ _
    (by
      intro c hc
      rcases List.mem_append.mp hc with h | h
      · exact (by decide : ∀ c ∈ ("bestvideo[height<=" : String).toList, c ≠ '/') c h
      · rcases List.mem_append.mp h with h | h
        · exact hdigmem c h
        · exact (by decide : ∀ c ∈ ("]+bestaudio[ext=m4a]" : String).toList, c ≠ '/') c h)
    (by
      intro c hc
      rcases List.mem_append.mp hc with h | h
      · exact (by decide : ∀ c ∈ ("bestvideo[height<=" : String).toList, c ≠ '/') c h
      · rcases List.mem_append.mp h with h | h
        · exact hdigmem c h
        · exact (by decide : ∀ c ∈ ("]+bestaudio" : String).toList, c ≠ '/') c h)
    (by
      intro c hc
      rcases List.mem_append.mp hc with h | h
      · exact (by decide : ∀ c ∈ ("best[height<=" : String).toList, c ≠ '/') c h
      · rcases List.mem_append.mp h with h | h
        · exact hdigmem c h
        · exact (by decide : ∀ c ∈ ("]" : String).toList, c ≠ '/') c h)]
  refine ⟨rfl, ?_⟩
  intro t ht
  have hneedle : ("height<=" ++ r).toList = ("height<=" : String).toList ++ r.toList :=
    toList_string_append _ _
  have hpre1 : ("bestvideo[height<=" : String).toList
      = ("bestvideo[" : String).toList ++ ("height<=" : String).toList := rfl
  have hpre3 : ("best[height<=" : String).toList
      = ("best[" : String).toList ++ ("height<=" : String).toList := rfl
  simp only [List.mem_cons, List.not_mem_nil, or_false] at ht
  rcases ht with rfl | rfl | rfl
  · rw [hneedle]
    have : ("bestvideo[height<=" : String).toList
        ++ (r.toList ++ ("]+bestaudio[ext=m4a]" : String).toList)
        = ("bestvideo[" : String).toList
          ++ ((("height<=" : String).toList ++ r.toList)
            ++ ("]+bestaudio[ext=m4a]" : String).toList) := by
      rw [hpre1]
      simp [List.append_assoc]
    rw [this]
    exact containsSub_of_append _ _ _
  · rw [hneedle]
    have : ("bestvideo[height<=" : String).toList
        ++ (r.toList ++ ("]+bestaudio" : String).toList)
        = ("bestvideo[" : String).toList
          ++ ((("height<=" : String).toList ++ r.toList)
            ++ ("]+bestaudio" : String).toList) := by
      rw [hpre1]
      simp [List.append_assoc]
    rw [this]
    exact containsSub_of_append _ _ _
  · rw [hneedle]
    have : ("best[height<=" : String).toList
        ++ (r.toList ++ ("]" : String).toList)
        = ("best[" : String).toList
          ++ ((("height<=" : String).toList ++ r.toList) ++ ("]" : String).toList) := by
      rw [hpre3]
      simp [List.append_assoc]
    rw [this]
    exact containsSub_of_append _ _ _

/-- C5 (witness): the numeric branch of the theorem at the concrete
resolution "720". -/
theorem download_format_selection_witness :
    (splitZ '/' (buildFormat "720").toList).length = 3 ∧
    ∀ t ∈ splitZ '/' (buildFormat "720").toList,
      containsSub ("height<=" ++ "720").toList t = true :=
  download_format_selection.1 "720" (by decide) (by decide)

/-! ### Normalizer on value trees (claims C6, C7, C10) -/

theorem jsonList_eq_map (xs : List PyVal) : jsonList xs = xs.map to_jsonable := by
  induction xs with
  | nil => rfl
  | cons x xs ih => simp [jsonList, ih]

theorem jsonPairs_eq_map (kvs : List (PyVal × PyVal)) :
    jsonPairs kvs = kvs.map fun p => (pyStr p.1, to_jsonable p.2) := by
  induction kvs with
  | nil => rfl
  | cons p rest ih => simp [jsonPairs, ih]

theorem jsonFields_eq_map (fs : List (String × PyVal)) :
    jsonFields fs = fs.map fun p => (p.1, to_jsonable p.2) := by
  induction fs with
  | nil => rfl
  | cons p rest ih => simp [jsonFields, ih]

theorem jsonAttrs_eq_map (l : List (String × PyVal)) :
    jsonAttrs l
      = (l.filter fun p => !p.1.startsWith "_").map fun p => (p.1, to_jsonable p.2) := by
  induction l with
  | nil => rfl
  | cons p rest ih =>
    by_cases h : p.1.startsWith "_"
    · simp [jsonAttrs, h, List.filter_cons, ih]
    · simp [jsonAttrs, h, List.filter_cons, ih]

theorem safeList_eq_all (xs : List PyVal) : safeList xs = xs.all isJsonSafe := by
  induction xs with
  | nil => rfl
  | cons x xs ih => simp [safeList, ih]

theorem safePairs_eq_all (kvs : List (PyVal × PyVal)) :
    safePairs kvs = kvs.all fun p => isStrKey p.1 && isJsonSafe p.2 := by
  induction kvs with
  | nil => rfl
  | cons p rest ih => simp [safePairs, ih, Bool.and_assoc]

theorem dictInsert_mem {m : List (String × PyVal)} {k : String} {v : PyVal}
    {p : String × PyVal} (h : p ∈ dictInsert m k v) : p ∈ m ∨ p = (k, v) := by
  unfold dictInsert at h
  by_cases hany : m.any (fun q => q.1 == k)
  · rw [if_pos hany] at h
    obtain ⟨q, hq, hqe⟩ := List.mem_map.mp h
    by_cases hk : q.1 == k
    · rw [if_pos hk] at hqe
      exact Or.inr hqe.symm
    · rw [if_neg hk] at hqe
      exact Or.inl (hqe ▸ hq)
  · rw [if_neg hany] at h
    rcases List.mem_append.mp h with h | h
    · exact Or.inl h
    · exact Or.inr (List.mem_singleton.mp h)

theorem dictInsert_keys_nodup {m : List (String × PyVal)} {k : String} {v : PyVal}
    (h : (m.map Prod.fst).Nodup) : ((dictInsert m k v).map Prod.fst).Nodup := by
  unfold dictInsert
  by_cases hany : m.any (fun q => q.1 == k)
  · rw [if_pos hany]
    have : ((m.map fun p => if p.1 == k then (k, v) else p).map Prod.fst)
        = m.map Prod.fst := by
      rw [List.map_map]
      apply List.map_congr_left
      intro p _
      by_cases hk : p.1 == k
      · simp only [Function.comp_apply, if_pos hk]
        exact (beq_iff_eq.mp hk).symm
      · simp only [Function.comp_apply, if_neg hk]
    rw [this]
    exact h
  · rw [if_neg hany]
    rw [List.map_append]
    have hnot : k ∉ m.map Prod.fst := by
      intro hk
      obtain ⟨q, hq, hqe⟩ := List.mem_map.mp hk
      exact hany (List.any_eq_true.mpr ⟨q, hq, by simp [hqe]⟩)
    refine List.Nodup.append h (by simp) ?_
    intro a ha hb
    have : a = k := by simpa using hb
    subst this
    exact hnot ha

theorem dictInsert_length_le {m : List (String × PyVal)} {k : String} {v : PyVal} :
    (dictInsert m k v).length ≤ m.length + 1 := by
  unfold dictInsert
  by_cases hany : m.any (fun q => q.1 == k)
  · rw [if_pos hany]
    simp
  · rw [if_neg hany]
    simp

theorem buildDict_fold_mem :
    ∀ (l acc : List (String × PyVal)) (p : String × PyVal),
      p ∈ l.foldl (fun m q => dictInsert m q.1 q.2) acc → p ∈ acc ∨ p ∈ l := by
  intro l
  induction l with
  | nil => intro acc p h; exact Or.inl h
  | cons q l ih =>
    intro acc p h
    rcases ih (dictInsert acc q.1 q.2) p h with h | h
    · rcases dictInsert_mem h with h | h
      · exact Or.inl h
      · exact Or.inr (by simp [h])
    · exact Or.inr (by simp [h])

theorem buildDict_mem {l : List (String × PyVal)} {p : String × PyVal}
    (h : p ∈ buildDict l) : p ∈ l := by
  rcases buildDict_fold_mem l [] p h with h | h
  · exact absurd h (List.not_mem_nil p)
  · exact h

theorem buildDict_fold_keys_nodup :
    ∀ (l acc : List (String × PyVal)), (acc.map Prod.fst).Nodup →
      ((l.foldl (fun m q => dictInsert m q.1 q.2) acc).map Prod.fst).Nodup := by
  intro l
  induction l with
  | nil => intro acc h; exact h
  | cons q l ih =>
    intro acc h
    exact ih (dictInsert acc q.1 q.2) (dictInsert_keys_nodup h)

theorem buildDict_keys_nodup (l : List (String × PyVal)) :
    ((buildDict l).map Prod.fst).Nodup :=
  buildDict_fold_keys_nodup l [] (by simp)

theorem buildDict_fold_length :
    ∀ (l acc : List (String × PyVal)),
      (l.foldl (fun m q => dictInsert m q.1 q.2) acc).length ≤ acc.length + l.length := by
  intro l
  induction l with
  | nil => intro acc; simp
  | cons q l ih =>
    intro acc
    have h1 := ih (dictInsert acc q.1 q.2)
    have h2 : (dictInsert acc q.1 q.2).length ≤ acc.length + 1 := dictInsert_length_le
    simp only [List.foldl_cons, List.length_cons]
    omega

theorem buildDict_length_le (l : List (String × PyVal)) :
    (buildDict l).length ≤ l.length := by
  have := buildDict_fold_length l []
  simpa using this

theorem buildDict_fold_id :
    ∀ (l acc : List (String × PyVal)), (((acc ++ l).map Prod.fst).Nodup) →
      l.foldl (fun m q => dictInsert m q.1 q.2) acc = acc ++ l := by
  intro l
  induction l with
  | nil => intro acc _; simp
  | cons q l ih =>
    intro acc h
    have hkeys : (acc.map Prod.fst ++ q.1 :: l.map Prod.fst).Nodup := by
      simpa [List.map_append] using h
    have hqnot : q.1 ∉ acc.map Prod.fst := by
      intro hq
      have hdisj := (List.nodup_append.mp hkeys).2.2
      exact hdisj hq (by simp)
    have hstep : dictInsert acc q.1 q.2 = acc ++ [q] := by
      unfold dictInsert
      rw [if_neg ?h]
      case h =>
        simp only [List.any_eq_true, not_exists, not_and, Bool.not_eq_true]
        intro x hx
        by_contra hbeq
        rw [Bool.not_eq_false, beq_iff_eq] at hbeq
        exact hqnot (List.mem_map.mpr ⟨x, hx, hbeq⟩)
    rw [List.foldl_cons, hstep, ih (acc ++ [q]) (by simpa using h)]
    simp

theorem buildDict_id {l : List (String × PyVal)} (h : (l.map Prod.fst).Nodup) :
    buildDict l = l := by
  have := buildDict_fold_id l [] (by simpa using h)
  simpa using this

theorem keyStrs_wrap (l : List (String × PyVal)) :
    keyStrs (l.map fun p => (PyVal.pystr p.1, p.2)) = l.map Prod.fst := by
  induction l with
  | nil => rfl
  | cons p rest ih =>
    show p.1 :: keyStrs (rest.map fun p => (PyVal.pystr p.1, p.2)) = p.1 :: rest.map Prod.fst
    rw [ih]

theorem safePairs_wrap (l : List (String × PyVal)) :
    safePairs (l.map fun p => (PyVal.pystr p.1, p.2)) = l.all fun p => isJsonSafe p.2 := by
  induction l with
  | nil => rfl
  | cons p rest ih => simp [safePairs, isStrKey, ih]

/-- Safety of `wrapDict`: a string-keyed entry list with pairwise-distinct
keys and JSON-safe values wraps to a JSON-safe dict. -/
theorem isJsonSafe_wrapDict {l : List (String × PyVal)}
    (hvals : ∀ p ∈ l, isJsonSafe p.2 = true) (hkeys : (l.map Prod.fst).Nodup) :
    isJsonSafe (wrapDict l) = true := by
  unfold wrapDict
  show (safePairs _ && _) = true
  rw [safePairs_wrap, keyStrs_wrap]
  simp only [Bool.and_eq_true, decide_eq_true_eq]
  exact ⟨List.all_eq_true.mpr hvals, hkeys⟩

theorem sizeOf_snd_lt_of_mem_pairs {kvs : List (PyVal × PyVal)} {p : PyVal × PyVal}
    (h : p ∈ kvs) : sizeOf p.2 < sizeOf kvs := by
  have h1 := List.sizeOf_lt_of_mem h
  obtain ⟨a, b⟩ := p
  simp at h1 ⊢
  omega

theorem sizeOf_snd_lt_of_mem_fields {fs : List (String × PyVal)} {p : String × PyVal}
    (h : p ∈ fs) : sizeOf p.2 < sizeOf fs := by
  have h1 := List.sizeOf_lt_of_mem h
  obtain ⟨a, b⟩ := p
  simp at h1 ⊢
  omega

/-- Every output of the normalizer is a JSON-safe tree, by strong induction
on the size of the input value. -/
theorem to_jsonable_safe_aux :
    ∀ n (v : PyVal), sizeOf v < n → isJsonSafe (to_jsonable v) = true := by
  intro n
  induction n with
  | zero => omega
  | succ n ih =>
    intro v hv
    have listCase : ∀ xs : List PyVal, sizeOf xs ≤ n →
        isJsonSafe (.pylist (jsonList xs)) = true := by
      intro xs hxs
      show safeList (jsonList xs) = true
      rw [jsonList_eq_map, safeList_eq_all, List.all_map]
      refine List.all_eq_true.mpr fun x hx => ?_
      have hsx : sizeOf x < sizeOf xs := List.sizeOf_lt_of_mem hx
      exact ih x (by omega)
    have pairsCase : ∀ kvs : List (PyVal × PyVal), sizeOf kvs ≤ n →
        isJsonSafe (wrapDict (buildDict (jsonPairs kvs))) = true := by
      intro kvs hkvs
      refine isJsonSafe_wrapDict ?_ (buildDict_keys_nodup _)
      intro p hp
      have hp2 := buildDict_mem hp
      rw [jsonPairs_eq_map] at hp2
      obtain ⟨q, hq, hqe⟩ := List.mem_map.mp hp2
      have hsq : sizeOf q.2 < sizeOf kvs := sizeOf_snd_lt_of_mem_pairs hq
      have : p.2 = to_jsonable q.2 := by rw [← hqe]
      rw [this]
      exact ih q.2 (by omega)
    have fieldsCase : ∀ fs : List (String × PyVal), sizeOf fs ≤ n →
        isJsonSafe (wrapDict (buildDict (jsonFields fs))) = true := by
      intro fs hfs
      refine isJsonSafe_wrapDict ?_ (buildDict_keys_nodup _)
      intro p hp
      have hp2 := buildDict_mem hp
      rw [jsonFields_eq_map] at hp2
      obtain ⟨q, hq, hqe⟩ := List.mem_map.mp hp2
      have hsq : sizeOf q.2 < sizeOf fs := sizeOf_snd_lt_of_mem_fields hq
      have : p.2 = to_jsonable q.2 := by rw [← hqe]
      rw [this]
      exact ih q.2 (by omega)
    have attrsCase : ∀ l : List (String × PyVal), sizeOf l ≤ n →
        isJsonSafe (wrapDict (buildDict (jsonAttrs l))) = true := by
      intro l hl
      refine isJsonSafe_wrapDict ?_ (buildDict_keys_nodup _)
      intro p hp
      have hp2 := buildDict_mem hp
      rw [jsonAttrs_eq_map] at hp2
      obtain ⟨q, hq, hqe⟩ := List.mem_map.mp hp2
      have hqmem : q ∈ l := List.mem_of_mem_filter hq
      have hsq : sizeOf q.2 < sizeOf l := sizeOf_snd_lt_of_mem_fields hqmem
      have : p.2 = to_jsonable q.2 := by rw [← hqe]
      rw [this]
      exact ih q.2 (by omega)
    cases v with
    | pynone => rfl
    | pybool b => rfl
    | pyint k => rfl
    | pyfloat q => rfl
    | pystr s => rfl
    | pylist xs =>
      have : sizeOf xs ≤ n := by simp at hv; omega
      exact listCase xs this
    | pytuple xs =>
      have : sizeOf xs ≤ n := by simp at hv; omega
      exact listCase xs this
    | pyset xs =>
      have : sizeOf xs ≤ n := by simp at hv; omega
      exact listCase xs this
    | pydict kvs =>
      have : sizeOf kvs ≤ n := by simp at hv; omega
      exact pairsCase kvs this
    | pydataclass fs =>
      have : sizeOf fs ≤ n := by simp at hv; omega
      exact fieldsCase fs this
    | pyobj td attrs =>
      rcases td with _ | td2
      · rcases attrs with _ | l
        · rfl
        · have : sizeOf l ≤ n := by simp at hv; omega
          exact attrsCase l this
      · rcases td2 with _ | v2
        · rcases attrs with _ | l
          · rfl
          · have : sizeOf l ≤ n := by simp at hv; omega
            exact attrsCase l this
        · have hs : sizeOf v2 < n := by simp at hv; omega
          rcases attrs with _ | l
          · exact ih v2 hs
          · exact ih v2 hs

/-- C6 (amended): on every finite, acyclic value the normalizer terminates
(it is a total function of the value tree), never raises, and returns a
JSON-safe tree: null, booleans, numbers, strings, arrays, or string-keyed
objects, degrading to the repr string for attribute-free opaque objects. -/
theorem to_jsonable_total_json_safe (v : PyVal) : isJsonSafe (to_jsonable v) = true :=
  to_jsonable_safe_aux (sizeOf v + 1) v (by omega)

/-- C6 (amended, witness): the theorem applied to an opaque object whose
`to_dict` raises and that has no `__dict__`. -/
theorem to_jsonable_total_json_safe_witness :
    isJsonSafe (to_jsonable (.pyobj (some none) none)) = true :=
  to_jsonable_total_json_safe (.pyobj (some none) none)

theorem isStrKey_exists {v : PyVal} (h : isStrKey v = true) : ∃ s, v = PyVal.pystr s := by
  cases v with
  | pystr s => exact ⟨s, rfl⟩
  | pynone => exact absurd h (by decide)
  | pybool b => exact absurd h (by simp [isStrKey])
  | pyint k => exact absurd h (by simp [isStrKey])
  | pyfloat q => exact absurd h (by simp [isStrKey])
  | pylist xs => exact absurd h (by simp [isStrKey])
  | pytuple xs => exact absurd h (by simp [isStrKey])
  | pyset xs => exact absurd h (by simp [isStrKey])
  | pydict kvs => exact absurd h (by simp [isStrKey])
  | pydataclass fs => exact absurd h (by simp [isStrKey])
  | pyobj td attrs => exact absurd h (by simp [isStrKey])

theorem keyStrs_of_strkeys {kvs : List (PyVal × PyVal)}
    (h : ∀ p ∈ kvs, isStrKey p.1 = true) :
    kvs.map (fun p => pyStr p.1) = keyStrs kvs := by
  induction kvs with
  | nil => rfl
  | cons p rest ih =>
    obtain ⟨k, v2⟩ := p
    have hh := isStrKey_exists (h (k, v2) (by simp))
    obtain ⟨s, hs⟩ := hh
    have hks : k = PyVal.pystr s := hs
    subst hks
    have htl := ih fun q hq => h q (by simp [hq])
    show s :: rest.map (fun p => pyStr p.1) = s :: keyStrs rest
    rw [htl]

/-- Round trip of a JSON-safe dict through the normalizer: string keys are
left unchanged by `str`, values by the inductive hypothesis, and distinct
keys make the overwrite-fold the identity. -/
theorem wrapDict_jsonPairs_id {kvs : List (PyVal × PyVal)}
    (hk : ∀ p ∈ kvs, isStrKey p.1 = true)
    (hv : ∀ p ∈ kvs, to_jsonable p.2 = p.2)
    (hnd : (keyStrs kvs).Nodup) :
    wrapDict (buildDict (jsonPairs kvs)) = .pydict kvs := by
  have h1 : jsonPairs kvs = kvs.map fun p => (pyStr p.1, p.2) := by
    rw [jsonPairs_eq_map]
    exact List.map_congr_left fun p hp => by rw [hv p hp]
  have h2 : (kvs.map fun p => (pyStr p.1, p.2)).map Prod.fst = keyStrs kvs := by
    rw [List.map_map]
    exact keyStrs_of_strkeys hk
  have h3 : buildDict (jsonPairs kvs) = kvs.map fun p => (pyStr p.1, p.2) := by
    rw [h1]
    exact buildDict_id (by rw [h2]; exact hnd)
  rw [h3]
  unfold wrapDict
  rw [List.map_map]
  congr 1
  have hpt : ∀ p ∈ kvs,
      ((fun p : String × PyVal => (PyVal.pystr p.1, p.2))
        ∘ fun p : PyVal × PyVal => (pyStr p.1, p.2)) p = p := by
    intro p hp
    obtain ⟨s, hs⟩ := isStrKey_exists (hk p hp)
    show (PyVal.pystr (pyStr p.1), p.2) = p
    have h1 : (PyVal.pystr (pyStr p.1), (p.2 : PyVal)) = (p.1, p.2) := by
      rw [hs]
      rfl
    rw [h1]
  rw [List.map_congr_left hpt]
  simp

/-- Identity of the normalizer on JSON-safe trees, by strong induction on
the size of the value. -/
theorem to_jsonable_id_aux :
    ∀ n (v : PyVal), sizeOf v < n → isJsonSafe v = true → to_jsonable v = v := by
  intro n
  induction n with
  | zero => omega
  | succ n ih =>
    intro v hv hsafe
    cases v with
    | pynone => rfl
    | pybool b => rfl
    | pyint k => rfl
    | pyfloat q => rfl
    | pystr s => rfl
    | pylist xs =>
      have hall : ∀ x ∈ xs, isJsonSafe x = true := by
        have : safeList xs = true := hsafe
        rw [safeList_eq_all] at this
        exact List.all_eq_true.mp this
      show PyVal.pylist (jsonList xs) = PyVal.pylist xs
      congr 1
      rw [jsonList_eq_map]
      have : ∀ x ∈ xs, to_jsonable x = x := by
        intro x hx
        have hsx : sizeOf x < sizeOf xs := List.sizeOf_lt_of_mem hx
        have hxs : sizeOf xs < n + 1 := by simp at hv; omega
        exact ih x (by omega) (hall x hx)
      rw [List.map_congr_left this]
      simp
    | pytuple xs => exact absurd hsafe (by simp [isJsonSafe])
    | pyset xs => exact absurd hsafe (by simp [isJsonSafe])
    | pydict kvs =>
      have hsplit : safePairs kvs = true ∧ (keyStrs kvs).Nodup := by
        have : (safePairs kvs && decide (keyStrs kvs).Nodup) = true := hsafe
        rw [Bool.and_eq_true, decide_eq_true_eq] at this
        exact this
      have hall := List.all_eq_true.mp ((safePairs_eq_all kvs) ▸ hsplit.1)
      have hk : ∀ p ∈ kvs, isStrKey p.1 = true := by
        intro p hp
        have := hall p hp
        rw [Bool.and_eq_true] at this
        exact this.1
      have hvv : ∀ p ∈ kvs, to_jsonable p.2 = p.2 := by
        intro p hp
        have hsafe2 : isJsonSafe p.2 = true := by
          have := hall p hp
          rw [Bool.and_eq_true] at this
          exact this.2
        have hsp : sizeOf p.2 < sizeOf kvs := sizeOf_snd_lt_of_mem_pairs hp
        have hkv : sizeOf kvs < n + 1 := by simp at hv; omega
        exact ih p.2 (by omega) hsafe2
      exact wrapDict_jsonPairs_id hk hvv hsplit.2
    | pydataclass fs => exact absurd hsafe (by simp [isJsonSafe])
    | pyobj td attrs => exact absurd hsafe (by simp [isJsonSafe])

/-- C7: the normalizer is the identity on every JSON-safe value: primitives
and arbitrarily nested lists and string-keyed dicts come back exactly
unchanged. -/
theorem to_jsonable_identity_on_json_safe (v : PyVal) (h : isJsonSafe v = true) :
    to_jsonable v = v :=
  to_jsonable_id_aux (sizeOf v + 1) v (by omega) h

/-- C7 (witness): the theorem applied to a concrete nested JSON-safe value. -/
theorem to_jsonable_identity_on_json_safe_witness :
    to_jsonable (.pydict
        [(.pystr "a", .pylist [.pyint 1, .pyfloat (mkRat 3 2), .pynone]),
         (.pystr "b", .pystr "x")])
      = .pydict
        [(.pystr "a", .pylist [.pyint 1, .pyfloat (mkRat 3 2), .pynone]),
         (.pystr "b", .pystr "x")] :=
  to_jsonable_identity_on_json_safe
    (.pydict
      [(.pystr "a", .pylist [.pyint 1, .pyfloat (mkRat 3 2), .pynone]),
       (.pystr "b", .pystr "x")]) (by rfl)

/-- C10: every key of a normalized dict is the `str` form of an input key,
the output never has more entries than the input; and on the concrete dict
with the two distinct keys `1` and `"1"` (whose string forms coincide) the
output keeps a single entry, the value of the later key, so it has strictly
fewer entries than the input. -/
theorem to_jsonable_dict_key_coercion :
    (∀ kvs : List (PyVal × PyVal),
      ∃ out : List (String × PyVal),
        to_jsonable (.pydict kvs) = wrapDict out ∧
        (∀ p ∈ out, p.1 ∈ kvs.map fun q => pyStr q.1) ∧
        out.length ≤ kvs.length) ∧
    (to_jsonable (.pydict [(.pyint 1, .pynone), (.pystr "1", .pybool true)])
        = .pydict [(.pystr "1", .pybool true)] ∧
      ([((PyVal.pystr "1" : PyVal), (PyVal.pybool true : PyVal))]).length
        < ([((PyVal.pyint 1 : PyVal), (PyVal.pynone : PyVal)),
            ((PyVal.pystr "1" : PyVal), (PyVal.pybool true : PyVal))]).length) := by
  refine ⟨?_, rfl, by decide⟩
  intro kvs
  refine ⟨buildDict (jsonPairs kvs), rfl, ?_, ?_⟩
  · intro p hp
    have hmem := buildDict_mem hp
    rw [jsonPairs_eq_map] at hmem
    obtain ⟨q, hq, hqe⟩ := List.mem_map.mp hmem
    exact List.mem_map.mpr ⟨q, hq, by rw [← hqe]⟩
  · have h1 : (buildDict (jsonPairs kvs)).length ≤ (jsonPairs kvs).length :=
      buildDict_length_le _
    have h2 : (jsonPairs kvs).length = kvs.length := by
      rw [jsonPairs_eq_map, List.length_map]
    omega

/-! ### Normalizer on the heap: divergence on a self-referential value
(claim C6, the claim as stated) -/

/-- On the one-cell cyclic heap the normalizer never returns, whatever the
recursion depth allowed. -/
theorem toJsonableFuel_cycHeap_none : ∀ n, toJsonableFuel n cycHeap 0 = none := by
  intro n
  induction n using Nat.strong_induction_on with
  | _ n ih =>
    match n with
    | 0 => rfl
    | 1 => rfl
    | n + 2 =>
      have h0 : toJsonableFuel n cycHeap 0 = none := ih n (by omega)
      simp [toJsonableFuel, jsonListFuel, cycHeap, h0]

/-- C6 (counterexample): the self-referential value `x = [x]` is a real
input (its address is populated in the heap), and on it the normalizer does
not terminate: no recursion depth suffices for it to produce a result, which
in Python is an unbounded recursion ending in a raised `RecursionError`. -/
theorem to_jsonable_cyclic_input_diverges :
    cycHeap 0 = some (.hlist [0]) ∧
    ¬ ∃ n : ℕ, (toJsonableFuel n cycHeap 0).isSome = true := by
  refine ⟨rfl, ?_⟩
  rintro ⟨n, hn⟩
  rw [toJsonableFuel_cycHeap_none n] at hn
  simp at hn

/-! ### Local-file ingestion guard (claim C8) -/

/-- C8: the local-file branch of `cmd_transcribe` rejects a non-existent
source with exit status 1 and no file written; rejects an existing source
whose lowercased name does not end in ".wav" with exit status 1 and no file
written; and accepts otherwise, deriving the transcript base name as the
file name minus its extension, targeting that base name plus ".wav" in the
output directory, and copying exactly when source and destination resolve
to different absolute paths. -/
theorem cmd_transcribe_local_guard (fileExists : String → Bool)
    (abspath : String → String) (source outdir : String) :
    (fileExists source = false →
      cmd_transcribe_local fileExists abspath source outdir = .rejected 1) ∧
    (fileExists source = true → pyEndsWith (strLower source) ".wav" = false →
      cmd_transcribe_local fileExists abspath source outdir = .rejected 1) ∧
    (fileExists source = true → pyEndsWith (strLower source) ".wav" = true →
      cmd_transcribe_local fileExists abspath source outdir =
        .accepted (splitextStem (basenameStr source))
          (outdir ++ "/" ++ splitextStem (basenameStr source) ++ ".wav")
          (abspath source
            != abspath (outdir ++ "/" ++ splitextStem (basenameStr source) ++ ".wav"))) := by
  refine ⟨?_, ?_, ?_⟩
  · intro h
    unfold cmd_transcribe_local
    rw [h]
    rfl
  · intro h1 h2
    unfold cmd_transcribe_local
    rw [h1, h2]
    rfl
  · intro h1 h2
    unfold cmd_transcribe_local
    rw [h1, h2]
    rfl

/-- C8 (witness): the existing local source "notes.mp3" is rejected with
exit status 1, the example of the specification. -/
theorem cmd_transcribe_local_guard_witness :
    cmd_transcribe_local (fun _ => true) (fun s => s) "notes.mp3" "transcriptions"
      = .rejected 1 :=
  (cmd_transcribe_local_guard (fun _ => true) (fun s => s) "notes.mp3"
    "transcriptions").2.1 rfl (by rfl)

end YtTools
